import Mathlib

/-!
Verification of the vanity-identifier search engine (`src/main.rs`).

Shallow embedding conventions:

* Rust `u8`/`u64` values are `Nat`; wrap-around arithmetic is written with an
  explicit `% 2 ^ 64` (or `% 256`) exactly where the Rust types truncate.
* Byte slices and strings-as-bytes are `List Nat`; the digest of `sha2::Sha256`
  (an external crate, outside this repository) is a parameter
  `digestFn : List Nat → List Nat` constrained only by its output contract
  (`sha256_output_spec`: 32 bytes, each < 256).
* Fallible code (a Rust index panic) returns `Option`: `none` is a panic.
* The thread interleaving of `run_vanity_id_generator` is modelled by an
  explicit scheduler: a `List Nat` of worker ids; each schedule entry runs one
  atomic step of that worker.  The atomic read-modify-write `found.swap(true)`
  of the source is one step; the pure candidate computation is a separate step,
  so the race "two workers both pass the flag check, both find a match, only
  the first swap wins" is expressible.
-/

/-- The fixed 16-symbol alphabet of `main.rs` (`const MAPPING: [char; 16]`),
mapping nibble values 0..15 to the letters a..p. -/
def MAPPING : List Char :=
  ['a', 'b', 'c', 'd', 'e', 'f', 'g', 'h', 'i', 'j', 'k', 'l', 'm', 'n', 'o', 'p']

/-- Rust array indexing `MAPPING[i]`; `none` models the index panic. -/
def mappingAt (i : Nat) : Option Char := MAPPING[i]?

/-- The loop `for byte_idx in 0..full_bytes` of `hash_matches_prefix_optimized`
(src/main.rs lines 264-277), starting at `byteIdx` with `fuel` iterations left.
`hash_byte >> 4` is `/ 16` and `hash_byte & 0x0F` is `% 16` on a byte;
`MAPPING[...] as u8` is `Char.toNat % 256`.  A mismatch exits early with
`some false`; an out-of-range index is a panic (`none`). -/
def hash_matches_pairs (hash pfx : List Nat) (byteIdx : Nat) : Nat → Option Bool
  | 0 => some true
  | fuel + 1 => do
    let hashByte ← hash[byteIdx]?
    let expectedHigh ← pfx[byteIdx * 2]?
    let expectedLow ← pfx[byteIdx * 2 + 1]?
    let actualHigh ← mappingAt (hashByte / 16)
    let actualLow ← mappingAt (hashByte % 16)
    if actualHigh.toNat % 256 ≠ expectedHigh ∨ actualLow.toNat % 256 ≠ expectedLow then
      some false
    else
      hash_matches_pairs hash pfx (byteIdx + 1) fuel

/-- `hash_matches_prefix_optimized` (src/main.rs lines 253-291): `hash` is the
digest byte slice, `pfx` the byte string of the desired prefix
(`prefix.as_bytes()`).  Empty prefix returns `true` at once; otherwise the
pair loop runs for `prefix_len / 2` bytes, and an odd-length prefix checks one
final high nibble at `hash[full_bytes]` against `prefix_bytes[prefix_len - 1]`.
`none` models an index panic. -/
def hash_matches_prefix_optimized (hash pfx : List Nat) : Option Bool :=
  let prefixLen := pfx.length
  if prefixLen = 0 then some true
  else
    let fullBytes := prefixLen / 2
    do
      let ok ← hash_matches_pairs hash pfx 0 fullBytes
      if ok = false then some false
      else
        if prefixLen % 2 = 1 then do
          let hashByte ← hash[fullBytes]?
          let expectedChar ← pfx[prefixLen - 1]?
          let actualChar ← mappingAt (hashByte / 16)
          if actualChar.toNat % 256 ≠ expectedChar then some false else some true
        else some true

/-- The `flat_map` body of `hash_to_extension_id` (src/main.rs lines 293-302):
for each byte emit `MAPPING[byte >> 4]` then `MAPPING[byte & 0x0F]`. -/
def id_chars : List Nat → Option (List Char)
  | [] => some []
  | b :: rest => do
    let high ← mappingAt (b / 16)
    let low ← mappingAt (b % 16)
    let tail ← id_chars rest
    some (high :: low :: tail)

/-- `hash_to_extension_id` (src/main.rs lines 293-302): the slice `hash[..16]`
panics when the digest is shorter than 16 bytes, otherwise the first 16 bytes
are expanded nibble-wise through `MAPPING`. -/
def hash_to_extension_id (hash : List Nat) : Option (List Char) :=
  if hash.length < 16 then none
  else id_chars (hash.take 16)

/-- `u64::to_le_bytes`: the 8 little-endian bytes of a 64-bit value. -/
def to_le_bytes (x : Nat) : List Nat :=
  (List.range 8).map fun j => x / 2 ^ (8 * j) % 256

/-- `u64::from_le_bytes`: read a byte list as a little-endian integer. -/
def from_le_bytes (l : List Nat) : Nat :=
  l.foldr (fun b acc => b + 256 * acc) 0

/-- `generate_key_data` (src/main.rs lines 238-251): bytes 0..8 are
`counter.to_le_bytes()`, and byte `i` for `i` in 8..32 is
`((counter >> (i % 8)) ^ (i as u64)) as u8`. -/
def generate_key_data (counter : Nat) : List Nat :=
  to_le_bytes counter ++
    ((List.range 24).map fun k =>
      let i := k + 8
      (counter >>> (i % 8) ^^^ i) % 256)

/-- Modelled from the spec (§4.1 reference algorithm), for comparison with
`generate_key_data`: "write the index as 8 little-endian bytes into the first
8 bytes of the block; fill bytes 8..32 with `((index >> (i % 8)) XOR i) as u8`
for each byte position `i`". -/
def generate_reference (index : Nat) : List Nat :=
  (List.range 32).map fun i =>
    if i < 8 then index / 2 ^ (8 * i) % 256
    else (index >>> (i % 8) ^^^ i) % 256

/-- Output contract of the external SHA-256 (`sha2::Sha256`, a crate outside
this repository; the spec §4.2 requires only "a fixed, publicly specified
secure hash function (256-bit output)"): every digest is exactly 32 bytes,
each a `u8`. -/
def sha256_output_spec (digestFn : List Nat → List Nat) : Prop :=
  ∀ input : List Nat, (digestFn input).length = 32 ∧ ∀ x ∈ digestFn input, x < 256

/-- A test double for the external hash (the spec §9 suggests exactly such
doubles): a fixed all-zero 32-byte digest, used to instantiate theorems at
concrete inputs. -/
def const_zero_digest : List Nat → List Nat := fun _ => List.replicate 32 0

/-- `try_generate_match_optimized` (src/main.rs lines 222-236), with the
external hash as a parameter: generate the candidate, hash it, test the
prefix; on a match also materialize the extension id.  The outer `Option`
models a panic. -/
def try_generate_match_optimized (digestFn : List Nat → List Nat)
    (pfx : List Nat) (counter : Nat) : Option (Option (List Char × List Nat)) :=
  let key_data := generate_key_data counter
  let hash := digestFn key_data
  do
    let isMatch ← hash_matches_prefix_optimized hash pfx
    if isMatch then do
      let extensionId ← hash_to_extension_id hash
      some (some (extensionId, key_data))
    else
      some none

/-- `THREAD_RANGE_SIZE` (src/main.rs line 109): `u64::MAX / 1024`. -/
def THREAD_RANGE_SIZE : Nat := (2 ^ 64 - 1) / 1024

/-- The starting counter of CPU worker `threadId` in the CPU-only run
(src/main.rs line 123): `(thread_id as u64) * THREAD_RANGE_SIZE`,
with u64 wrap-around. -/
def thread_start_counter (threadId : Nat) : Nat :=
  threadId * THREAD_RANGE_SIZE % 2 ^ 64

/-- The nominal index range implied by worker `threadId`'s start counter:
from its own start up to the next worker's start (the source assigns only the
start; successive starts are `THREAD_RANGE_SIZE` apart). -/
def thread_range (threadId : Nat) : Set Nat :=
  Set.Ico (thread_start_counter threadId)
    (thread_start_counter threadId + THREAD_RANGE_SIZE)

/-- `GPU_RANGE_START` of the hybrid run (src/main.rs line 340). -/
def GPU_RANGE_START : Nat := 0

/-- `CPU_RANGE_START` of the hybrid run (src/main.rs line 341): `u64::MAX / 2`. -/
def CPU_RANGE_START : Nat := (2 ^ 64 - 1) / 2

/-- `CPU_THREAD_RANGE_SIZE` of the hybrid run (src/main.rs line 342):
`(u64::MAX / 2) / 1024`. -/
def CPU_THREAD_RANGE_SIZE : Nat := (2 ^ 64 - 1) / 2 / 1024

/-- Start counter of GPU batch `batchId` in the hybrid run (src/main.rs
line 358): `GPU_RANGE_START + batch_id * gpu_batch_size`, u64 arithmetic. -/
def gpu_batch_start (gpuBatchSize batchId : Nat) : Nat :=
  (GPU_RANGE_START + batchId * gpuBatchSize) % 2 ^ 64

/-- The set of indices the GPU worker submits during its first `batches`
batch calls: batch `k` covers `[start, start + batch_size)` (src/main.rs
lines 356-360, §4.3 of the spec), u64 arithmetic. -/
def gpu_submitted (gpuBatchSize batches : Nat) : Set Nat :=
  {n | ∃ k, k < batches ∧ ∃ j, j < gpuBatchSize ∧
    n = (gpu_batch_start gpuBatchSize k + j) % 2 ^ 64}

/-- Start counter of hybrid CPU worker `threadId` (src/main.rs lines 408-409):
`CPU_RANGE_START + thread_id * CPU_THREAD_RANGE_SIZE`, u64 arithmetic. -/
def cpu_thread_start (threadId : Nat) : Nat :=
  (CPU_RANGE_START + threadId * CPU_THREAD_RANGE_SIZE) % 2 ^ 64

/-- The set of indices hybrid CPU worker `threadId` tests during its first
`steps` loop iterations: its private cursor starts at `cpu_thread_start` and
increments by 1 each iteration (src/main.rs lines 410-429), u64 wrap. -/
def cpu_tested (threadId steps : Nat) : Set Nat :=
  {n | ∃ j, j < steps ∧ n = (cpu_thread_start threadId + j) % 2 ^ 64}

/-- Private state of one CPU worker thread of `run_vanity_id_generator`
(src/main.rs lines 121-139): its cursor and attempt count, whether it has
exited its loop, a pending match it has computed but not yet published
(between the prefix test and the `found.swap`), and a ghost log of every
counter it has passed to `try_generate_match_optimized`. -/
structure WorkerState where
  counter : Nat
  attempts : Nat
  finished : Bool
  pending : Option (List Char × List Nat)
  tested : List Nat

/-- Shared state of one run (spec §3 SharedRunState) plus a ghost log of
result-slot writes (`writes` records `(thread_id, ext_id, key_data,
attempts)` for every write to the slot). -/
structure RunState where
  found : Bool
  result : Option (List Char × List Nat × Nat)
  writes : List (Nat × List Char × List Nat × Nat)
  workers : List WorkerState

/-- The worker states at spawn time (src/main.rs lines 112-125). -/
def init_workers (numThreads : Nat) : List WorkerState :=
  (List.range numThreads).map fun threadId =>
    { counter := thread_start_counter threadId
      attempts := 0
      finished := false
      pending := none
      tested := [] }

/-- The shared state at run start (src/main.rs lines 100-101). -/
def init_state (numThreads : Nat) : RunState :=
  { found := false, result := none, writes := [], workers := init_workers numThreads }

/-- One atomic step of worker `tid` (src/main.rs lines 128-139).  With no
pending match: the worker reads the found-flag (while condition); if clear it
runs `try_generate_match_optimized` on its cursor — a panic (`none`) kills the
thread, no match advances cursor and attempts (u64 wrap), a match is held as
`pending`.  With a pending match: the worker performs `found.swap(true)`; only
if the old value was `false` does it write the result slot (the mutex-guarded
write is folded into the swap step: the written value is thread-local and the
swap alone decides the winner).  An id with no worker is a no-op. -/
def worker_step (digestFn : List Nat → List Nat) (pfx : List Nat)
    (s : RunState) (tid : Nat) : RunState :=
  match s.workers[tid]? with
  | none => s
  | some w =>
    if w.finished then s
    else
      match w.pending with
      | some (extId, keyData) =>
        let w' := { w with pending := none, finished := true }
        if s.found = false then
          { found := true
            result := some (extId, keyData, (w.attempts + 1) % 2 ^ 64)
            writes := s.writes ++ [(tid, extId, keyData, (w.attempts + 1) % 2 ^ 64)]
            workers := s.workers.set tid w' }
        else
          { s with workers := s.workers.set tid w' }
      | none =>
        if s.found then
          { s with workers := s.workers.set tid ({ w with finished := true }) }
        else
          match try_generate_match_optimized digestFn pfx w.counter with
          | none =>
            let w' := { w with finished := true, tested := w.tested ++ [w.counter] }
            { s with workers := s.workers.set tid w' }
          | some none =>
            let w' := { w with counter := (w.counter + 1) % 2 ^ 64
                               attempts := (w.attempts + 1) % 2 ^ 64
                               tested := w.tested ++ [w.counter] }
            { s with workers := s.workers.set tid w' }
          | some (some m) =>
            let w' := { w with pending := some m, tested := w.tested ++ [w.counter] }
            { s with workers := s.workers.set tid w' }

/-- Run the workers under an explicit interleaving `sched` (each entry is the
id of the worker that takes the next atomic step). -/
def run_workers (digestFn : List Nat → List Nat) (pfx : List Nat)
    (s : RunState) (sched : List Nat) : RunState :=
  sched.foldl (worker_step digestFn pfx) s

/-- `run_vanity_id_generator` (src/main.rs lines 98-219) under scheduler
`sched`: spawn `numThreads` workers and interleave their steps; the final
`RunState.result` is what the coordinator drains for the result sink.
Progress printing and the sampled per-thread attempt vector (pure I/O
reporting) are not modelled. -/
def run_vanity_id_generator (digestFn : List Nat → List Nat) (pfx : List Nat)
    (numThreads : Nat) (sched : List Nat) : RunState :=
  run_workers digestFn pfx (init_state numThreads) sched

/-- Proof-side byte view of the nibble expansion: byte `b` becomes the two
UTF-8 bytes of `MAPPING[b >> 4]` and `MAPPING[b & 0x0F]`. -/
def expandBytes : List Nat → List Nat
  | [] => []
  | b :: rest => (97 + b / 16) :: (97 + b % 16) :: expandBytes rest

/-- Proof-side character view of the nibble expansion. -/
def expandChars : List Nat → List Char
  | [] => []
  | b :: rest => Char.ofNat (97 + b / 16) :: Char.ofNat (97 + b % 16) :: expandChars rest

theorem mappingAt_lt : ∀ v < 16, mappingAt v = some (Char.ofNat (97 + v)) := by decide

theorem ofNat_toNat_mod : ∀ v < 16, (Char.ofNat (97 + v)).toNat % 256 = 97 + v := by decide

theorem ofNat_toNat : ∀ v < 16, (Char.ofNat (97 + v)).toNat = 97 + v := by decide

theorem ofNat_mem_MAPPING : ∀ v < 16, Char.ofNat (97 + v) ∈ MAPPING := by decide

theorem expandBytes_length (l : List Nat) : (expandBytes l).length = 2 * l.length := by
  induction l with
  | nil => rfl
  | cons b rest ih => simp [expandBytes, ih]; omega

theorem expandChars_length (l : List Nat) : (expandChars l).length = 2 * l.length := by
  induction l with
  | nil => rfl
  | cons b rest ih => simp [expandChars, ih]; omega

theorem expandChars_map_toNat (l : List Nat) (h : ∀ b ∈ l, b < 256) :
    (expandChars l).map Char.toNat = expandBytes l := by
  induction l with
  | nil => rfl
  | cons b rest ih =>
    have hb : b < 256 := h b (List.mem_cons_self b rest)
    have h1 : b / 16 < 16 := by omega
    have h2 : b % 16 < 16 := by omega
    simp [expandChars, expandBytes, ofNat_toNat _ h1, ofNat_toNat _ h2,
      ih fun x hx => h x (List.mem_cons_of_mem b hx)]

theorem id_chars_eq (l : List Nat) (h : ∀ b ∈ l, b < 256) :
    id_chars l = some (expandChars l) := by
  induction l with
  | nil => rfl
  | cons b rest ih =>
    have hb : b < 256 := h b (List.mem_cons_self b rest)
    have h1 : b / 16 < 16 := by omega
    have h2 : b % 16 < 16 := by omega
    simp [id_chars, expandChars, mappingAt_lt _ h1, mappingAt_lt _ h2,
      ih fun x hx => h x (List.mem_cons_of_mem b hx)]

theorem expandChars_mem (l : List Nat) (h : ∀ b ∈ l, b < 256) :
    ∀ c ∈ expandChars l, c ∈ MAPPING := by
  induction l with
  | nil => intro c hc; cases hc
  | cons b rest ih =>
    have hb : b < 256 := h b (List.mem_cons_self b rest)
    have h1 : b / 16 < 16 := by omega
    have h2 : b % 16 < 16 := by omega
    intro c hc
    rcases hc with _ | ⟨_, hc⟩
    · exact ofNat_mem_MAPPING _ h1
    · rcases hc with _ | ⟨_, hc⟩
      · exact ofNat_mem_MAPPING _ h2
      · exact ih (fun x hx => h x (List.mem_cons_of_mem b hx)) c hc

theorem expandBytes_take (l : List Nat) :
    ∀ k, (expandBytes l).take (2 * k) = expandBytes (l.take k) := by
  induction l with
  | nil => intro k; simp [expandBytes]
  | cons b rest ih =>
    intro k
    cases k with
    | zero => rfl
    | succ k =>
      have h2 : 2 * (k + 1) = 2 * k + 1 + 1 := by omega
      simp [expandBytes, h2, ih k]

theorem expandBytes_drop (l : List Nat) :
    ∀ k, (expandBytes l).drop (2 * k) = expandBytes (l.drop k) := by
  induction l with
  | nil => intro k; simp [expandBytes]
  | cons b rest ih =>
    intro k
    cases k with
    | zero => rfl
    | succ k =>
      have h2 : 2 * (k + 1) = 2 * k + 1 + 1 := by omega
      simp [expandBytes, h2, ih k]

theorem isPrefixOf_eq_decide (p : List Nat) :
    ∀ l : List Nat, p.isPrefixOf l = decide (p = l.take p.length) := by
  induction p with
  | nil => intro l; simp [List.isPrefixOf]
  | cons a as ih =>
    intro l
    cases l with
    | nil => simp [List.isPrefixOf]
    | cons b bs =>
      simp only [List.isPrefixOf, List.take_succ_cons, List.length_cons]
      rw [ih bs]
      cases h : decide (a = b) with
      | false =>
        have hne : a ≠ b := of_decide_eq_false h
        simp [hne, Nat.beq_eq_true_eq, beq_iff_eq]
      | true =>
        have heq : a = b := of_decide_eq_true h
        subst heq
        simp

theorem hash_to_extension_id_eq (hash : List Nat) (hlen : 16 ≤ hash.length)
    (hbytes : ∀ b ∈ hash, b < 256) :
    hash_to_extension_id hash = some (expandChars (hash.take 16)) := by
  unfold hash_to_extension_id
  rw [if_neg (by omega)]
  exact id_chars_eq _ fun b hb => hbytes b (List.mem_of_mem_take hb)

theorem hash_matches_pairs_eq (hash pfx : List Nat) (hbytes : ∀ b ∈ hash, b < 256) :
    ∀ n cur, cur + n ≤ hash.length → 2 * (cur + n) ≤ pfx.length →
    hash_matches_pairs hash pfx cur n =
      some (decide ((pfx.drop (2 * cur)).take (2 * n) =
        expandBytes ((hash.drop cur).take n))) := by
  intro n
  induction n with
  | zero =>
    intro cur h1 h2
    simp [hash_matches_pairs, expandBytes]
  | succ n ih =>
    intro cur h1 h2
    have hcur : cur < hash.length := by omega
    have hp1 : 2 * cur < pfx.length := by omega
    have hp2 : 2 * cur + 1 < pfx.length := by omega
    have hblt : hash[cur] < 256 := hbytes _ (List.getElem_mem hcur)
    have h16a : hash[cur] / 16 < 16 := by omega
    have h16b : hash[cur] % 16 < 16 := by omega
    have hdh : hash.drop cur = hash[cur] :: hash.drop (cur + 1) :=
      List.drop_eq_getElem_cons hcur
    have hdp : pfx.drop (2 * cur) =
        pfx[2 * cur] :: pfx[2 * cur + 1] :: pfx.drop (2 * cur + 2) := by
      rw [List.drop_eq_getElem_cons hp1, List.drop_eq_getElem_cons hp2]
    have hRHSp : (pfx.drop (2 * cur)).take (2 * (n + 1)) =
        pfx[2 * cur] :: pfx[2 * cur + 1] :: (pfx.drop (2 * cur + 2)).take (2 * n) := by
      rw [hdp, show 2 * (n + 1) = 2 * n + 1 + 1 by omega]
      simp only [List.take_succ_cons]
    have hRHSe : expandBytes ((hash.drop cur).take (n + 1)) =
        (97 + hash[cur] / 16) :: (97 + hash[cur] % 16) ::
          expandBytes ((hash.drop (cur + 1)).take n) := by
      rw [hdh]
      simp [expandBytes]
    simp only [hash_matches_pairs, show cur * 2 = 2 * cur from Nat.mul_comm cur 2,
      List.getElem?_eq_getElem hcur, List.getElem?_eq_getElem hp1,
      List.getElem?_eq_getElem hp2, mappingAt_lt _ h16a, mappingAt_lt _ h16b,
      ofNat_toNat_mod _ h16a, ofNat_toNat_mod _ h16b, Option.pure_def,
      Option.bind_eq_bind, Option.some_bind]
    by_cases hcond : 97 + hash[cur] / 16 ≠ pfx[2 * cur] ∨
        97 + hash[cur] % 16 ≠ pfx[2 * cur + 1]
    · rw [if_pos hcond, hRHSp, hRHSe]
      have hne : pfx[2 * cur] :: pfx[2 * cur + 1] :: (pfx.drop (2 * cur + 2)).take (2 * n) ≠
          (97 + hash[cur] / 16) :: (97 + hash[cur] % 16) ::
            expandBytes ((hash.drop (cur + 1)).take n) := by
        intro h
        injection h with hh1 h'
        injection h' with hh2 h''
        rcases hcond with hc | hc
        · exact hc hh1.symm
        · exact hc hh2.symm
      simp [hne]
    · push_neg at hcond
      obtain ⟨hc1, hc2⟩ := hcond
      rw [if_neg (by push_neg; exact ⟨hc1, hc2⟩)]
      have hih := ih (cur + 1) (by omega) (by omega)
      rw [show 2 * (cur + 1) = 2 * cur + 2 by omega] at hih
      rw [hih, hRHSp, hRHSe]
      congr 1
      rw [decide_eq_decide]
      constructor
      · intro h
        rw [h, hc1, hc2]
      · intro h
        simp only [List.cons.injEq] at h
        exact h.2.2

theorem matches_optimized_eq_take (hash pfx : List Nat)
    (hlen : hash.length = 32) (hbytes : ∀ b ∈ hash, b < 256) (hplen : pfx.length ≤ 32) :
    hash_matches_prefix_optimized hash pfx =
      some (decide (pfx = (expandBytes (hash.take 16)).take pfx.length)) := by
  by_cases h0 : pfx.length = 0
  · have hnil : pfx = [] := List.length_eq_zero.mp h0
    subst hnil
    simp [hash_matches_prefix_optimized]
  · have hfble : pfx.length / 2 ≤ 16 := by omega
    have hpairs := hash_matches_pairs_eq hash pfx hbytes (pfx.length / 2) 0
      (by omega) (by omega)
    simp only [Nat.mul_zero, List.drop_zero, Nat.zero_add] at hpairs
    have hEtake : (expandBytes (hash.take 16)).take (2 * (pfx.length / 2)) =
        expandBytes (hash.take (pfx.length / 2)) := by
      rw [expandBytes_take, List.take_take, Nat.min_eq_left hfble]
    simp only [hash_matches_prefix_optimized, if_neg h0]
    rw [hpairs]
    simp only [Option.pure_def, Option.bind_eq_bind, Option.some_bind]
    by_cases hodd : pfx.length % 2 = 1
    · -- odd prefix length: one trailing high-nibble comparison
      have hfb32 : pfx.length / 2 < hash.length := by omega
      have hlast : pfx.length - 1 < pfx.length := by omega
      obtain ⟨hb, hhb⟩ : ∃ x, hash[pfx.length / 2]? = some x :=
        ⟨_, List.getElem?_eq_getElem hfb32⟩
      obtain ⟨pc, hpc⟩ : ∃ x, pfx[pfx.length - 1]? = some x :=
        ⟨_, List.getElem?_eq_getElem hlast⟩
      have hblt : hb < 256 := hbytes _ (List.getElem?_mem hhb)
      have h16a : hb / 16 < 16 := by omega
      have hE2fb : (expandBytes (hash.take 16))[2 * (pfx.length / 2)]? =
          some (97 + hb / 16) := by
        have ht16 : pfx.length / 2 < (hash.take 16).length := by
          rw [List.length_take]; omega
        rw [← List.head?_drop, expandBytes_drop, List.drop_eq_getElem_cons ht16]
        have hbval : (hash.take 16)[pfx.length / 2] = hb := by
          have h1 : (hash.take 16)[pfx.length / 2] = hash[pfx.length / 2] :=
            List.getElem_take hash
          have h2 := List.getElem?_eq_getElem hfb32
          rw [h2] at hhb
          injection hhb with h3
          rw [h1, h3]
        rw [hbval]
        simp [expandBytes]
      have hpfx_split : pfx = pfx.take (2 * (pfx.length / 2)) ++ [pc] := by
        conv_lhs => rw [← List.take_length (l := pfx),
          show pfx.length = 2 * (pfx.length / 2) + 1 from by omega]
        rw [List.take_succ,
          show 2 * (pfx.length / 2) = pfx.length - 1 from by omega, hpc]
        rfl
      have hE_split : (expandBytes (hash.take 16)).take pfx.length =
          expandBytes (hash.take (pfx.length / 2)) ++ [97 + hb / 16] := by
        conv_lhs => rw [show pfx.length = 2 * (pfx.length / 2) + 1 from by omega]
        rw [List.take_succ, hEtake, hE2fb]
        rfl
      by_cases hseg : pfx.take (2 * (pfx.length / 2)) = expandBytes (hash.take (pfx.length / 2))
      · rw [if_neg (by simp [hseg])]
        rw [if_pos hodd, hhb, hpc]
        simp only [Option.pure_def, Option.bind_eq_bind, Option.some_bind,
          mappingAt_lt _ h16a, ofNat_toNat_mod _ h16a]
        by_cases hchar : 97 + hb / 16 = pc
        · rw [if_neg (by omega)]
          have hfull : pfx = (expandBytes (hash.take 16)).take pfx.length := by
            rw [hE_split, ← hseg, hchar]
            exact hpfx_split
          rw [decide_eq_true hfull]
        · rw [if_pos (by omega)]
          have hfull : ¬ (pfx = (expandBytes (hash.take 16)).take pfx.length) := by
            rw [hE_split]
            intro hcontra
            have hcontra2 := hpfx_split.symm.trans hcontra
            have hinj := List.append_inj hcontra2 (by
              rw [List.length_take, expandBytes_length, List.length_take]
              omega)
            have h2 := hinj.2
            injection h2 with h3
            exact hchar h3.symm
          rw [decide_eq_false hfull]
      · rw [if_pos (by rw [decide_eq_false hseg])]
        have hfull : ¬ (pfx = (expandBytes (hash.take 16)).take pfx.length) := by
          rw [hE_split]
          intro hcontra
          have hcontra2 := hpfx_split.symm.trans hcontra
          have hinj := List.append_inj hcontra2 (by
            rw [List.length_take, expandBytes_length, List.length_take]
            omega)
          exact hseg hinj.1
        rw [decide_eq_false hfull]
    · -- even prefix length
      have hlen2 : 2 * (pfx.length / 2) = pfx.length := by omega
      have hiff : (pfx.take (2 * (pfx.length / 2)) = expandBytes (hash.take (pfx.length / 2)))
          ↔ (pfx = (expandBytes (hash.take 16)).take pfx.length) := by
        rw [← hEtake, hlen2, List.take_length]
      by_cases hseg : pfx.take (2 * (pfx.length / 2)) = expandBytes (hash.take (pfx.length / 2))
      · rw [if_neg (by simp [hseg]), if_neg hodd, decide_eq_true (hiff.mp hseg)]
      · rw [if_pos (by rw [decide_eq_false hseg]),
          decide_eq_false (fun h => hseg (hiff.mpr h))]

theorem isPrefixOf_eq_false_of_longer (p l : List Nat) (h : l.length < p.length) :
    p.isPrefixOf l = false := by
  rw [isPrefixOf_eq_decide]
  apply decide_eq_false
  intro hcontra
  have hlen := congrArg List.length hcontra
  rw [List.length_take] at hlen
  omega

theorem const_zero_digest_spec : sha256_output_spec const_zero_digest := by
  intro input
  constructor
  · simp [const_zero_digest]
  · intro x hx
    simp [const_zero_digest] at hx
    omega

/-- Claim C1: for every 32-byte digest `d` and every prefix `p` of byte length
0 through 32, `hash_matches_prefix_optimized(d, p)` returns exactly the same
boolean as the naive definition `hash_to_extension_id(d).starts_with(p)`
(`starts_with` compares the UTF-8 bytes, i.e. the `Char.toNat` codes of the
all-ASCII identifier); in particular the empty prefix matches every digest. -/
theorem C1_optimized_matches_naive (hash pfx : List Nat)
    (hlen : hash.length = 32) (hbytes : ∀ b ∈ hash, b < 256) (hplen : pfx.length ≤ 32) :
    hash_matches_prefix_optimized hash pfx =
      (hash_to_extension_id hash).map (fun id => pfx.isPrefixOf (id.map Char.toNat)) ∧
    hash_matches_prefix_optimized hash [] = some true := by
  constructor
  · rw [hash_to_extension_id_eq hash (by omega) hbytes]
    simp only [Option.map_some']
    rw [expandChars_map_toNat _ (fun b hb => hbytes b (List.mem_of_mem_take hb)),
      isPrefixOf_eq_decide]
    exact matches_optimized_eq_take hash pfx hlen hbytes hplen
  · rfl

/-- Witness for C1: the all-zero digest against the prefix "aa". -/
theorem C1_optimized_matches_naive_witness :
    (List.replicate 32 0 : List Nat).length = 32 ∧
    (∀ b ∈ (List.replicate 32 0 : List Nat), b < 256) ∧
    ([97, 97] : List Nat).length ≤ 32 ∧
    (hash_matches_prefix_optimized (List.replicate 32 0) [97, 97] =
      (hash_to_extension_id (List.replicate 32 0)).map
        (fun id => ([97, 97] : List Nat).isPrefixOf (id.map Char.toNat)) ∧
     hash_matches_prefix_optimized (List.replicate 32 0) [] = some true) :=
  ⟨by decide, by decide, by decide,
    C1_optimized_matches_naive (List.replicate 32 0) [97, 97]
      (by decide) (by decide) (by decide)⟩

/-- Claim C2 is false as stated: on the all-zero digest, the 33-character
prefix "aaa…a" (33 bytes 97, longer than the 32-character identifier) makes
`hash_matches_prefix_optimized` return `true`, not `false` — the code keeps
comparing against nibbles of digest bytes beyond the first 16. -/
theorem C2_counterexample :
    32 < (List.replicate 33 97 : List Nat).length ∧
    hash_matches_prefix_optimized (List.replicate 32 0) (List.replicate 33 97) =
      some true := by
  constructor
  · decide
  · decide

/-- Claim C2 amended: a prefix longer than 32 characters never matches the
naive identifier (its `starts_with` is always false), and for prefix byte
lengths 33..=64 the optimized test evaluates without an out-of-bounds access —
but it does not always return `false`: it compares the surplus characters
against nibble expansions of digest bytes 16..31 and may return `true` (see
the counterexample); for lengths ≥ 65 it can index out of bounds. -/
theorem C2_amended (hash pfx : List Nat)
    (hlen : hash.length = 32) (hbytes : ∀ b ∈ hash, b < 256)
    (hplen : 32 < pfx.length) :
    (∀ id, hash_to_extension_id hash = some id →
      pfx.isPrefixOf (id.map Char.toNat) = false) ∧
    (pfx.length ≤ 64 → ∃ b, hash_matches_prefix_optimized hash pfx = some b) := by
  constructor
  · intro id hid
    rw [hash_to_extension_id_eq hash (by omega) hbytes] at hid
    injection hid with hid
    subst hid
    apply isPrefixOf_eq_false_of_longer
    rw [List.length_map, expandChars_length, List.length_take]
    omega
  · intro h64
    have hpairs := hash_matches_pairs_eq hash pfx hbytes (pfx.length / 2) 0
      (by omega) (by omega)
    simp only [Nat.mul_zero, List.drop_zero, Nat.zero_add] at hpairs
    simp only [hash_matches_prefix_optimized, if_neg (show ¬ pfx.length = 0 by omega)]
    rw [hpairs]
    simp only [Option.pure_def, Option.bind_eq_bind, Option.some_bind]
    by_cases hseg : pfx.take (2 * (pfx.length / 2)) = expandBytes (hash.take (pfx.length / 2))
    · rw [if_neg (by simp [hseg])]
      by_cases hodd : pfx.length % 2 = 1
      · rw [if_pos hodd]
        have hfb32 : pfx.length / 2 < hash.length := by omega
        obtain ⟨hb, hhb⟩ : ∃ x, hash[pfx.length / 2]? = some x :=
          ⟨_, List.getElem?_eq_getElem hfb32⟩
        obtain ⟨pc, hpc⟩ : ∃ x, pfx[pfx.length - 1]? = some x :=
          ⟨_, List.getElem?_eq_getElem (show pfx.length - 1 < pfx.length by omega)⟩
        have hblt : hb < 256 := hbytes _ (List.getElem?_mem hhb)
        rw [hhb, hpc]
        simp only [Option.pure_def, Option.bind_eq_bind, Option.some_bind,
          mappingAt_lt _ (show hb / 16 < 16 by omega)]
        by_cases hchar : (Char.ofNat (97 + hb / 16)).toNat % 256 ≠ pc
        · rw [if_pos hchar]
          exact ⟨false, rfl⟩
        · rw [if_neg hchar]
          exact ⟨true, rfl⟩
      · rw [if_neg hodd]
        exact ⟨true, rfl⟩
    · rw [if_pos (by rw [decide_eq_false hseg])]
      exact ⟨false, rfl⟩

/-- Witness for the amended C2: the all-zero digest with the 33-'a' prefix. -/
theorem C2_amended_witness :
    (List.replicate 32 0 : List Nat).length = 32 ∧
    (∀ b ∈ (List.replicate 32 0 : List Nat), b < 256) ∧
    32 < (List.replicate 33 97 : List Nat).length ∧
    ((∀ id, hash_to_extension_id (List.replicate 32 0) = some id →
      (List.replicate 33 97 : List Nat).isPrefixOf (id.map Char.toNat) = false) ∧
     ((List.replicate 33 97 : List Nat).length ≤ 64 →
      ∃ b, hash_matches_prefix_optimized (List.replicate 32 0) (List.replicate 33 97) =
        some b)) :=
  ⟨by decide, by decide, by decide,
    C2_amended (List.replicate 32 0) (List.replicate 33 97)
      (by decide) (by decide) (by decide)⟩

/-- Claim C7: for every input block `b`, the identifier derived from its
(32-byte) digest is a string of length exactly 32 whose characters all lie in
the alphabet a..p. -/
theorem C7_extension_id_shape (digestFn : List Nat → List Nat)
    (hd : sha256_output_spec digestFn) (b : List Nat) :
    ∃ id, hash_to_extension_id (digestFn b) = some id ∧
      id.length = 32 ∧ ∀ c ∈ id, c ∈ MAPPING := by
  obtain ⟨hlen, hbytes⟩ := hd b
  refine ⟨expandChars ((digestFn b).take 16),
    hash_to_extension_id_eq _ (by omega) hbytes, ?_, ?_⟩
  · rw [expandChars_length, List.length_take]
    omega
  · exact expandChars_mem _ fun x hx => hbytes x (List.mem_of_mem_take hx)

/-- Witness for C7 with the test-double digest. -/
theorem C7_extension_id_shape_witness :
    sha256_output_spec const_zero_digest ∧
    ∃ id, hash_to_extension_id (const_zero_digest []) = some id ∧
      id.length = 32 ∧ ∀ c ∈ id, c ∈ MAPPING :=
  ⟨const_zero_digest_spec, C7_extension_id_shape const_zero_digest const_zero_digest_spec []⟩

/-- Claim C6: `generate_key_data` is a pure, total, deterministic function of
the index (two calls agree), and the produced block equals the reference
algorithm: 8 little-endian index bytes followed by
`((index >> (i % 8)) XOR i) as u8` for positions 8..32. -/
theorem C6_generate_key_data_reference (counter : Nat) :
    generate_key_data counter = generate_key_data counter ∧
    generate_key_data counter = generate_reference counter := by
  refine ⟨rfl, ?_⟩
  unfold generate_key_data generate_reference to_le_bytes
  rw [show (32 : Nat) = 8 + 24 from rfl, List.range_add, List.map_append, List.map_map]
  congr 1

theorem from_le_roundtrip :
    ∀ n x, from_le_bytes ((List.range n).map fun j => x / 2 ^ (8 * j) % 256) =
      x % 2 ^ (8 * n) := by
  intro n
  induction n with
  | zero =>
    intro x
    simp [from_le_bytes]
    omega
  | succ n ih =>
    intro x
    rw [List.range_succ_eq_map]
    simp only [List.map_cons, List.map_map]
    have hmap : (List.range n).map ((fun j => x / 2 ^ (8 * j) % 256) ∘ Nat.succ) =
        (List.range n).map fun j => x / 256 / 2 ^ (8 * j) % 256 := by
      apply List.map_congr_left
      intro j hj
      simp only [Function.comp_apply]
      rw [Nat.div_div_eq_div_mul, show 256 * 2 ^ (8 * j) = 2 ^ (8 * Nat.succ j) from by
        rw [show 8 * Nat.succ j = 8 + 8 * j from by omega, pow_add]
        norm_num]
    rw [hmap]
    have hcons : from_le_bytes ((x / 2 ^ (8 * 0) % 256) ::
        ((List.range n).map fun j => x / 256 / 2 ^ (8 * j) % 256)) =
        x / 2 ^ (8 * 0) % 256 + 256 * from_le_bytes
          ((List.range n).map fun j => x / 256 / 2 ^ (8 * j) % 256) := rfl
    rw [hcons, ih (x / 256)]
    rw [show (2 : Nat) ^ (8 * (n + 1)) = 256 * 2 ^ (8 * n) from by
      rw [show 8 * (n + 1) = 8 + 8 * n from by omega, pow_add]
      norm_num]
    rw [Nat.mod_mul]
    norm_num

/-- Claim C10: the index is exactly recoverable from the candidate's first 8
bytes read as a little-endian u64, hence `generate_key_data` is injective on
the whole u64 index space. -/
theorem C10_generate_key_data_injective (i j : Nat)
    (hi : i < 2 ^ 64) (hj : j < 2 ^ 64) :
    from_le_bytes ((generate_key_data i).take 8) = i ∧
    (generate_key_data i = generate_key_data j → i = j) := by
  have hrt : ∀ x, x < 2 ^ 64 → from_le_bytes ((generate_key_data x).take 8) = x := by
    intro x hx
    unfold generate_key_data
    rw [List.take_left' (by simp [to_le_bytes])]
    unfold to_le_bytes
    rw [from_le_roundtrip 8 x]
    exact Nat.mod_eq_of_lt (by norm_num at hx ⊢; omega)
  refine ⟨hrt i hi, fun heq => ?_⟩
  have h1 := hrt i hi
  have h2 := hrt j hj
  rw [heq] at h1
  rw [h1] at h2
  exact h2

/-- Witness for C10 at a concrete index pair. -/
theorem C10_generate_key_data_injective_witness :
    (3 : Nat) < 2 ^ 64 ∧ (5 : Nat) < 2 ^ 64 ∧
    (from_le_bytes ((generate_key_data 3).take 8) = 3 ∧
      (generate_key_data 3 = generate_key_data 5 → 3 = 5)) :=
  ⟨by norm_num, by norm_num,
    C10_generate_key_data_injective 3 5 (by norm_num) (by norm_num)⟩

/-- Claim C3 is false as stated: the per-worker stride is the fixed constant
`u64::MAX / 1024`, independent of the worker count N.  With N = 2 workers the
second worker does not start at `2^64 / 2`, the nominal range size is not
`2^64 / 2`, and the index `2^63` (inside `[0, 2^64)`) lies in neither
worker's nominal range, so the union is not the whole space. -/
theorem C3_counterexample :
    THREAD_RANGE_SIZE ≠ 2 ^ 64 / 2 ∧
    thread_start_counter 1 ≠ 2 ^ 64 / 2 ∧
    2 ^ 63 ∉ thread_range 0 ∧
    2 ^ 63 ∉ thread_range 1 := by
  refine ⟨?_, ?_, ?_, ?_⟩
  · norm_num [THREAD_RANGE_SIZE]
  · norm_num [thread_start_counter, THREAD_RANGE_SIZE]
  · simp only [thread_range, thread_start_counter, THREAD_RANGE_SIZE, Set.mem_Ico]
    norm_num
  · simp only [thread_range, thread_start_counter, THREAD_RANGE_SIZE, Set.mem_Ico]
    norm_num

/-- Claim C3 amended: for every worker count N in 1..=1024, the nominal
per-worker ranges (each starting at `thread_id * THREAD_RANGE_SIZE`) are
contiguous and pairwise disjoint, but each has the fixed size
`u64::MAX / 1024` (not `2^64 / N`), and their union is
`[0, N * THREAD_RANGE_SIZE)` — a proper subset of `[0, 2^64)` for every such
N; workers simply keep incrementing past their nominal range without bound. -/
theorem C3_amended (N : Nat) (h1 : 1 ≤ N) (h2 : N ≤ 1024) :
    (∀ i, i + 1 < N → thread_start_counter (i + 1) =
      thread_start_counter i + THREAD_RANGE_SIZE) ∧
    (∀ i j, i < N → j < N → i ≠ j →
      ∀ x, x ∈ thread_range i → x ∉ thread_range j) ∧
    (⋃ i ∈ Finset.range N, thread_range i) =
      Set.Ico 0 (N * THREAD_RANGE_SIZE) ∧
    N * THREAD_RANGE_SIZE < 2 ^ 64 := by
  have hTRS : THREAD_RANGE_SIZE = 18014398509481983 := by norm_num [THREAD_RANGE_SIZE]
  have hlt : ∀ t, t ≤ 1024 → t * THREAD_RANGE_SIZE < 2 ^ 64 := by
    intro t ht
    calc t * THREAD_RANGE_SIZE ≤ 1024 * THREAD_RANGE_SIZE :=
          Nat.mul_le_mul_right _ ht
      _ < 2 ^ 64 := by rw [hTRS]; norm_num
  have hstart : ∀ t, t ≤ 1024 → thread_start_counter t = t * THREAD_RANGE_SIZE :=
    fun t ht => Nat.mod_eq_of_lt (hlt t ht)
  have hdisj1 : ∀ i j, j ≤ 1024 → i < j →
      ∀ x, x ∈ thread_range i → x ∉ thread_range j := by
    intro i j hj hij x hxi hxj
    rw [thread_range, Set.mem_Ico, hstart i (by omega)] at hxi
    rw [thread_range, Set.mem_Ico, hstart j (by omega)] at hxj
    have hstep : (i + 1) * THREAD_RANGE_SIZE ≤ j * THREAD_RANGE_SIZE :=
      Nat.mul_le_mul_right _ (by omega)
    rw [Nat.succ_mul] at hstep
    omega
  refine ⟨?_, ?_, ?_, hlt N h2⟩
  · intro i hi
    rw [hstart (i + 1) (by omega), hstart i (by omega), Nat.succ_mul]
  · intro i j hi hj hij x hxi
    rcases Nat.lt_or_ge i j with hlt2 | hge
    · exact hdisj1 i j (by omega) hlt2 x hxi
    · have hlt3 : j < i := by omega
      intro hxj
      exact hdisj1 j i (by omega) hlt3 x hxj hxi
  · have hunion : ∀ M, M ≤ 1024 →
        (⋃ i ∈ Finset.range M, thread_range i) =
          Set.Ico 0 (M * THREAD_RANGE_SIZE) := by
      intro M
      induction M with
      | zero => intro _; simp
      | succ M ih =>
        intro hM
        rw [Finset.range_succ, Finset.set_biUnion_insert, ih (by omega),
          thread_range, hstart M (by omega), Set.union_comm,
          Set.Ico_union_Ico_eq_Ico (Nat.zero_le _) (Nat.le_add_right _ _),
          Nat.succ_mul]
    exact hunion N h2

/-- Witness for the amended C3 at N = 2. -/
theorem C3_amended_witness :
    1 ≤ 2 ∧ 2 ≤ 1024 ∧
    ((∀ i, i + 1 < 2 → thread_start_counter (i + 1) =
      thread_start_counter i + THREAD_RANGE_SIZE) ∧
    (∀ i j, i < 2 → j < 2 → i ≠ j →
      ∀ x, x ∈ thread_range i → x ∉ thread_range j) ∧
    (⋃ i ∈ Finset.range 2, thread_range i) =
      Set.Ico 0 (2 * THREAD_RANGE_SIZE) ∧
    2 * THREAD_RANGE_SIZE < 2 ^ 64) :=
  ⟨by norm_num, by norm_num, C3_amended 2 (by norm_num) (by norm_num)⟩

/-- Claim C9 is false as stated: the GPU batch counter is unbounded, so over a
long enough hybrid run the accelerator's submitted ranges cross into the CPU
half of the index space.  At the default batch size 1,000,000, batch number
9,223,372,036,854 contains index `2^63 - 1 = CPU_RANGE_START`, the very first
index tested by hybrid CPU thread 0. -/
theorem C9_counterexample :
    (2 ^ 63 - 1) ∈ gpu_submitted 1000000 9223372036855 ∧
    (2 ^ 63 - 1) ∈ cpu_tested 0 1 := by
  constructor
  · simp only [gpu_submitted, Set.mem_setOf_eq]
    refine ⟨9223372036854, by norm_num, 775807, by norm_num, ?_⟩
    norm_num [gpu_batch_start, GPU_RANGE_START]
  · simp only [cpu_tested, Set.mem_setOf_eq]
    refine ⟨0, by norm_num, ?_⟩
    norm_num [cpu_thread_start, CPU_RANGE_START, CPU_THREAD_RANGE_SIZE]

/-- Claim C9 amended: the GPU-submitted indices and the hybrid CPU cursors are
disjoint for any bounded portion of the run during which the accelerator has
stayed inside the first half (`g` batches of size `B` with
`g * B ≤ u64::MAX / 2`) and CPU thread `tid` has not wrapped
(`cpu_thread_start tid + s ≤ 2^64`); over an unbounded run the two device
classes do eventually collide (see the counterexample). -/
theorem C9_amended (B g s tid : Nat) (htid : tid < 1024)
    (hg : g * B ≤ CPU_RANGE_START) (hs : cpu_thread_start tid + s ≤ 2 ^ 64) :
    ∀ n, n ∈ gpu_submitted B g → n ∉ cpu_tested tid s := by
  intro n hgpu hcpu
  have hC : CPU_RANGE_START < 2 ^ 64 := by norm_num [CPU_RANGE_START]
  obtain ⟨k, hk, j, hj, hn⟩ := hgpu
  obtain ⟨j2, hj2, hn2⟩ := hcpu
  -- every GPU index is strictly below CPU_RANGE_START
  have hkj : k * B + j < g * B := by
    have h1 : (k + 1) * B ≤ g * B := Nat.mul_le_mul_right _ (by omega)
    rw [Nat.succ_mul] at h1
    have h2 : k * B + j < k * B + B := Nat.add_lt_add_left hj _
    exact Nat.lt_of_lt_of_le h2 h1
  have hA : k * B + j < CPU_RANGE_START := Nat.lt_of_lt_of_le hkj hg
  have hkB : k * B < 2 ^ 64 :=
    Nat.lt_trans (Nat.lt_of_le_of_lt (Nat.le_add_right (k * B) j) hA) hC
  have hgpu_lt : n < CPU_RANGE_START := by
    rw [hn]
    simp only [gpu_batch_start, GPU_RANGE_START, Nat.zero_add]
    rw [Nat.mod_eq_of_lt hkB, Nat.mod_eq_of_lt (Nat.lt_trans hA hC)]
    exact hA
  -- every index this CPU thread tests is at least CPU_RANGE_START
  have hCTRS : CPU_THREAD_RANGE_SIZE = 9007199254740991 := by
    norm_num [CPU_THREAD_RANGE_SIZE]
  have hCval : CPU_RANGE_START = 9223372036854775807 := by norm_num [CPU_RANGE_START]
  have hstart_lt : CPU_RANGE_START + tid * CPU_THREAD_RANGE_SIZE < 2 ^ 64 := by
    calc CPU_RANGE_START + tid * CPU_THREAD_RANGE_SIZE
        ≤ CPU_RANGE_START + 1023 * CPU_THREAD_RANGE_SIZE :=
          Nat.add_le_add_left (Nat.mul_le_mul_right _ (by omega)) _
      _ < 2 ^ 64 := by rw [hCval, hCTRS]; norm_num
  have hstart_eq : cpu_thread_start tid =
      CPU_RANGE_START + tid * CPU_THREAD_RANGE_SIZE := by
    simp only [cpu_thread_start]
    exact Nat.mod_eq_of_lt hstart_lt
  have hge : CPU_RANGE_START ≤ cpu_thread_start tid := by
    rw [hstart_eq]
    exact Nat.le_add_right _ _
  have hcpu_ge : CPU_RANGE_START ≤ n := by
    rw [hn2, Nat.mod_eq_of_lt (by omega)]
    omega
  omega

/-- Witness for the amended C9 at one GPU batch of size 1 and one CPU step. -/
theorem C9_amended_witness :
    0 < 1024 ∧ 1 * 1 ≤ CPU_RANGE_START ∧ cpu_thread_start 0 + 1 ≤ 2 ^ 64 ∧
    (0 : Nat) ∈ gpu_submitted 1 1 ∧ (0 : Nat) ∉ cpu_tested 0 1 := by
  have h1 : 1 * 1 ≤ CPU_RANGE_START := by norm_num [CPU_RANGE_START]
  have h2 : cpu_thread_start 0 + 1 ≤ 2 ^ 64 := by
    norm_num [cpu_thread_start, CPU_RANGE_START, CPU_THREAD_RANGE_SIZE]
  have h3 : (0 : Nat) ∈ gpu_submitted 1 1 := by
    simp only [gpu_submitted, Set.mem_setOf_eq]
    exact ⟨0, by norm_num, 0, by norm_num, by norm_num [gpu_batch_start, GPU_RANGE_START]⟩
  exact ⟨by norm_num, h1, h2, h3,
    C9_amended 1 1 1 0 (by norm_num) h1 h2 0 h3⟩

/-- Shared-state invariant of a run: at most one result-slot write ever
happens, the found-flag is set exactly when a write has happened, and the
result slot holds exactly the (single) recorded write. -/
def shared_inv (s : RunState) : Prop :=
  s.writes.length ≤ 1 ∧
  (s.found = true ↔ s.writes ≠ []) ∧
  s.result = s.writes.head?.map (fun e => e.2)

theorem shared_inv_init (n : Nat) : shared_inv (init_state n) := by
  refine ⟨by simp [init_state], by simp [init_state], by simp [init_state]⟩

/-- One worker step either leaves the shared state (flag, slot, write log)
untouched, or — only when the flag was still false — flips it to true and
performs the unique write. -/
theorem worker_step_cases (digestFn : List Nat → List Nat) (pfx : List Nat)
    (s : RunState) (tid : Nat) :
    ((worker_step digestFn pfx s tid).found = s.found ∧
     (worker_step digestFn pfx s tid).result = s.result ∧
     (worker_step digestFn pfx s tid).writes = s.writes) ∨
    (s.found = false ∧ ∃ e, (worker_step digestFn pfx s tid).found = true ∧
      (worker_step digestFn pfx s tid).result = some e.2 ∧
      (worker_step digestFn pfx s tid).writes = s.writes ++ [e]) := by
  unfold worker_step
  cases hw : s.workers[tid]? with
  | none => left; exact ⟨rfl, rfl, rfl⟩
  | some w =>
    dsimp only
    by_cases hf : w.finished
    · rw [if_pos hf]
      left; exact ⟨rfl, rfl, rfl⟩
    · rw [if_neg hf]
      cases hp : w.pending with
      | some m =>
        obtain ⟨extId, keyData⟩ := m
        dsimp only
        by_cases hfound : s.found = false
        · rw [if_pos hfound]
          right
          exact ⟨hfound, (tid, extId, keyData, (w.attempts + 1) % 2 ^ 64), rfl, rfl, rfl⟩
        · rw [if_neg hfound]
          left; exact ⟨rfl, rfl, rfl⟩
      | none =>
        dsimp only
        by_cases hfound : s.found
        · rw [if_pos hfound]
          left; exact ⟨rfl, rfl, rfl⟩
        · rw [if_neg hfound]
          cases try_generate_match_optimized digestFn pfx w.counter with
          | none => left; exact ⟨rfl, rfl, rfl⟩
          | some o =>
            cases o with
            | none => left; exact ⟨rfl, rfl, rfl⟩
            | some m => left; exact ⟨rfl, rfl, rfl⟩

theorem shared_inv_step (digestFn : List Nat → List Nat) (pfx : List Nat)
    (s : RunState) (tid : Nat) (h : shared_inv s) :
    shared_inv (worker_step digestFn pfx s tid) := by
  obtain ⟨hl, hiff, hres⟩ := h
  rcases worker_step_cases digestFn pfx s tid with ⟨h1, h2, h3⟩ | ⟨hfound, e, h1, h2, h3⟩
  · exact ⟨h3 ▸ hl, by rw [h1, h3]; exact hiff, by rw [h2, h3]; exact hres⟩
  · have hwe : s.writes = [] := by
      by_contra hne
      rw [hiff.mpr hne] at hfound
      cases hfound
    refine ⟨?_, ?_, ?_⟩
    · rw [h3, hwe]
      simp
    · rw [h1, h3, hwe]
      simp
    · rw [h2, h3, hwe]
      simp

theorem worker_step_found_mono (digestFn : List Nat → List Nat) (pfx : List Nat)
    (s : RunState) (tid : Nat) (h : s.found = true) :
    (worker_step digestFn pfx s tid).found = true := by
  rcases worker_step_cases digestFn pfx s tid with ⟨h1, _, _⟩ | ⟨_, _, h1, _, _⟩
  · rw [h1, h]
  · rw [h1]

theorem run_workers_inv (digestFn : List Nat → List Nat) (pfx : List Nat) :
    ∀ sched s, shared_inv s → shared_inv (run_workers digestFn pfx s sched) := by
  intro sched
  induction sched with
  | nil => intro s h; exact h
  | cons t rest ih =>
    intro s h
    exact ih _ (shared_inv_step digestFn pfx s t h)

theorem run_workers_found_mono (digestFn : List Nat → List Nat) (pfx : List Nat) :
    ∀ sched s, s.found = true → (run_workers digestFn pfx s sched).found = true := by
  intro sched
  induction sched with
  | nil => intro s h; exact h
  | cons t rest ih =>
    intro s h
    exact ih _ (worker_step_found_mono digestFn pfx s t h)

/-- After the flag is set, one further step of any worker leaves that worker
finished: every worker observes the flag and stops within one iteration. -/
theorem worker_stops_after_found (digestFn : List Nat → List Nat) (pfx : List Nat)
    (s : RunState) (tid : Nat) (h : s.found = true) :
    ∀ w', (worker_step digestFn pfx s tid).workers[tid]? = some w' →
      w'.finished = true := by
  intro w' hw'
  unfold worker_step at hw'
  cases hw : s.workers[tid]? with
  | none =>
    rw [hw] at hw'
    dsimp only at hw'
    rw [hw] at hw'
    cases hw'
  | some w =>
    have htid : tid < s.workers.length := by
      by_contra hge
      rw [List.getElem?_eq_none (by omega)] at hw
      cases hw
    rw [hw] at hw'
    dsimp only at hw'
    by_cases hf : w.finished
    · rw [if_pos hf, hw] at hw'
      injection hw' with hw'
      rw [← hw']
      exact hf
    · rw [if_neg hf] at hw'
      cases hp : w.pending with
      | some m =>
        obtain ⟨extId, keyData⟩ := m
        rw [hp] at hw'
        dsimp only at hw'
        rw [if_neg (by simp [h])] at hw'
        dsimp only at hw'
        rw [List.getElem?_set_self htid] at hw'
        injection hw' with hw'
        rw [← hw']
      | none =>
        rw [hp] at hw'
        dsimp only at hw'
        rw [if_pos h] at hw'
        dsimp only at hw'
        rw [List.getElem?_set_self htid] at hw'
        injection hw' with hw'
        rw [← hw']

/-- Claim C5: during one run, under every scheduler interleaving, the
found-flag only ever transitions false→true (monotone), at most one worker —
the one whose atomic swap observes the false→true transition — ever writes
the result slot, the flag is set exactly when that single write happened, the
result drained at run end is that single recorded match, and once the flag is
set every worker finishes within one further step of its own. -/
theorem C5_single_writer (digestFn : List Nat → List Nat) (pfx : List Nat)
    (numThreads : Nat) (sched : List Nat) :
    (run_vanity_id_generator digestFn pfx numThreads sched).writes.length ≤ 1 ∧
    ((run_vanity_id_generator digestFn pfx numThreads sched).found = true ↔
      (run_vanity_id_generator digestFn pfx numThreads sched).writes ≠ []) ∧
    (run_vanity_id_generator digestFn pfx numThreads sched).result =
      (run_vanity_id_generator digestFn pfx numThreads sched).writes.head?.map
        (fun e => e.2) ∧
    (∀ s1 s2, sched = s1 ++ s2 →
      (run_vanity_id_generator digestFn pfx numThreads s1).found = true →
      (run_vanity_id_generator digestFn pfx numThreads sched).found = true) ∧
    (∀ tid w',
      (run_vanity_id_generator digestFn pfx numThreads sched).found = true →
      (worker_step digestFn pfx
        (run_vanity_id_generator digestFn pfx numThreads sched) tid).workers[tid]? =
          some w' →
      w'.finished = true) := by
  obtain ⟨h1, h2, h3⟩ :=
    run_workers_inv digestFn pfx sched (init_state numThreads) (shared_inv_init numThreads)
  refine ⟨h1, h2, h3, ?_, ?_⟩
  · intro s1 s2 hsched hfound
    rw [hsched]
    unfold run_vanity_id_generator run_workers at hfound ⊢
    rw [List.foldl_append]
    exact run_workers_found_mono digestFn pfx s2 _ hfound
  · intro tid w' hfound hw'
    exact worker_stops_after_found digestFn pfx _ tid hfound w' hw'

/-- Witness for C5 at a concrete run. -/
theorem C5_single_writer_witness :
    (run_vanity_id_generator const_zero_digest [] 1 [0, 0]).writes.length ≤ 1 ∧
    (run_vanity_id_generator const_zero_digest [] 1 [0, 0]).result =
      (run_vanity_id_generator const_zero_digest [] 1 [0, 0]).writes.head?.map
        (fun e => e.2) :=
  ⟨(C5_single_writer const_zero_digest [] 1 [0, 0]).1,
   (C5_single_writer const_zero_digest [] 1 [0, 0]).2.2.1⟩

/-- A run whose workers have all finished never changes again. -/
theorem run_workers_fixed (digestFn : List Nat → List Nat) (pfx : List Nat)
    (s : RunState) (h : ∀ w ∈ s.workers, w.finished = true) :
    ∀ sched, run_workers digestFn pfx s sched = s := by
  have hstep : ∀ tid, worker_step digestFn pfx s tid = s := by
    intro tid
    unfold worker_step
    cases hw : s.workers[tid]? with
    | none => rfl
    | some w =>
      dsimp only
      rw [if_pos (h w (List.getElem?_mem hw))]
  intro sched
  induction sched with
  | nil => rfl
  | cons t r ih =>
    show run_workers digestFn pfx (worker_step digestFn pfx s t) r = s
    rw [hstep t]
    exact ih

/-- A worker with no pending match that sees a clear flag and finds a match
moves the match into its pending slot. -/
theorem worker_step_to_pending (digestFn : List Nat → List Nat) (pfx : List Nat)
    (s : RunState) (tid : Nat) (w : WorkerState) (m : List Char × List Nat)
    (hw : s.workers[tid]? = some w) (hf : w.finished = false) (hp : w.pending = none)
    (hfound : s.found = false)
    (htry : try_generate_match_optimized digestFn pfx w.counter = some (some m)) :
    worker_step digestFn pfx s tid =
      { s with workers := s.workers.set tid ({ w with pending := some m, tested := w.tested ++ [w.counter] }) } := by
  unfold worker_step
  rw [hw]
  dsimp only
  rw [if_neg (by rw [hf]; simp), hp]
  dsimp only
  rw [if_neg (by rw [hfound]; simp), htry]

/-- A worker holding a pending match whose swap observes the clear flag flips
the flag, writes the result slot and finishes. -/
theorem worker_step_swap_win (digestFn : List Nat → List Nat) (pfx : List Nat)
    (s : RunState) (tid : Nat) (w : WorkerState)
    (extId : List Char) (keyData : List Nat)
    (hw : s.workers[tid]? = some w) (hf : w.finished = false)
    (hp : w.pending = some (extId, keyData)) (hfound : s.found = false) :
    worker_step digestFn pfx s tid =
      { found := true, result := some (extId, keyData, (w.attempts + 1) % 2 ^ 64),
        writes := s.writes ++ [(tid, extId, keyData, (w.attempts + 1) % 2 ^ 64)],
        workers := s.workers.set tid { w with pending := none, finished := true } } := by
  unfold worker_step
  rw [hw]
  dsimp only
  rw [if_neg (by rw [hf]; simp), hp]
  dsimp only
  rw [if_pos hfound]

/-- Candidates hashed to any valid digest can never match the out-of-alphabet
prefix "z"*32: every identifier byte is in 97..112 while 'z' is 122. -/
theorem z_prefix_no_match (digestFn : List Nat → List Nat)
    (hd : sha256_output_spec digestFn) (counter : Nat) :
    try_generate_match_optimized digestFn (List.replicate 32 122) counter =
      some none := by
  obtain ⟨hlen, hbytes⟩ := hd (generate_key_data counter)
  have hmatch : hash_matches_prefix_optimized (digestFn (generate_key_data counter))
      (List.replicate 32 122) = some false := by
    rw [matches_optimized_eq_take _ _ hlen hbytes (by simp)]
    congr 1
    apply decide_eq_false
    intro hcontra
    have hne : (digestFn (generate_key_data counter)).take 16 ≠ [] := by
      intro hnil
      have h2 := congrArg List.length hnil
      rw [List.length_take, hlen] at h2
      exact absurd h2 (by decide)
    obtain ⟨b0, rest, hcons⟩ := List.exists_cons_of_ne_nil hne
    rw [hcons] at hcontra
    have hb0 : b0 < 256 := by
      have : b0 ∈ (digestFn (generate_key_data counter)).take 16 := by
        rw [hcons]; exact List.mem_cons_self _ _
      exact hbytes _ (List.mem_of_mem_take this)
    have h122 : (List.replicate 32 122 : List Nat) =
        122 :: List.replicate 31 122 := rfl
    rw [h122] at hcontra
    have hlen31 : (List.replicate 31 122 : List Nat).length = 31 := by simp
    have htk : (expandBytes (b0 :: rest)).take (122 :: List.replicate 31 122 : List Nat).length =
        (97 + b0 / 16) :: (97 + b0 % 16) :: (expandBytes rest).take 30 := by
      simp [expandBytes]
    rw [htk] at hcontra
    injection hcontra with hh _
    omega
  simp only [try_generate_match_optimized]
  rw [hmatch]
  rfl

/-- With zero workers the run never does anything: no worker exists, no
candidate is tested, the run ends with no result. -/
theorem run_zero_workers (digestFn : List Nat → List Nat) (pfx : List Nat) :
    ∀ sched, run_vanity_id_generator digestFn pfx 0 sched = init_state 0 := by
  intro sched
  exact run_workers_fixed digestFn pfx (init_state 0)
    (by intro w hw; simp [init_state, init_workers] at hw) sched

/-- Claim C4 is false as stated: nothing in the code validates the
configuration.  With the out-of-alphabet prefix "z"*32 and one worker, the
run does start: one worker is spawned and it tests the candidate at index 0 —
contradicting "no worker thread is ever spawned and no candidate is ever
tested". -/
theorem C4_counterexample :
    (init_state 1).workers.length = 1 ∧
    (run_vanity_id_generator const_zero_digest (List.replicate 32 122) 1 [0]).workers.map
      WorkerState.tested = [[0]] := by
  constructor
  · rfl
  · decide

/-- Claim C4 amended: the code performs no configuration validation at all.
A prefix outside the 16-symbol alphabet (32 'z' characters) is accepted and
the run starts and tests candidates, but no candidate can ever match it, so
the search merely never succeeds (it is not rejected before the run).  A
worker count of zero spawns no worker and the run ends silently with no
result and no error. -/
theorem C4_amended (digestFn : List Nat → List Nat)
    (hd : sha256_output_spec digestFn) :
    (∀ counter, try_generate_match_optimized digestFn
      (List.replicate 32 122) counter = some none) ∧
    (∀ pfx sched, run_vanity_id_generator digestFn pfx 0 sched = init_state 0) ∧
    (init_state 0).workers = [] ∧ (init_state 0).result = none :=
  ⟨z_prefix_no_match digestFn hd, run_zero_workers digestFn, rfl, rfl⟩

/-- Witness for the amended C4 with the test-double digest. -/
theorem C4_amended_witness :
    sha256_output_spec const_zero_digest ∧
    try_generate_match_optimized const_zero_digest (List.replicate 32 122) 0 =
      some none ∧
    run_vanity_id_generator const_zero_digest [] 0 [0, 1, 2] = init_state 0 :=
  ⟨const_zero_digest_spec,
   (C4_amended const_zero_digest const_zero_digest_spec).1 0,
   (C4_amended const_zero_digest const_zero_digest_spec).2.1 [] [0, 1, 2]⟩

/-- Claim C8: with the empty prefix and exactly one worker, the worker's
cursor starts at index 0, the very first candidate tested is the one at index
0 and it is immediately accepted as the match (no other candidate is ever
tested under any continuation of the schedule), and the reported identifier
is `hash_to_extension_id(digest(generate_key_data(0)))`. -/
theorem C8_empty_prefix_first_candidate (digestFn : List Nat → List Nat)
    (hd : sha256_output_spec digestFn) (rest : List Nat) :
    ∃ extId, hash_to_extension_id (digestFn (generate_key_data 0)) = some extId ∧
      (run_vanity_id_generator digestFn [] 1 (0 :: 0 :: rest)).result =
        some (extId, generate_key_data 0, 1) ∧
      (run_vanity_id_generator digestFn [] 1 (0 :: 0 :: rest)).workers.map
        WorkerState.tested = [[0]] ∧
      thread_start_counter 0 = 0 := by
  obtain ⟨hlen, hbytes⟩ := hd (generate_key_data 0)
  have h00 : thread_start_counter 0 = 0 := by norm_num [thread_start_counter]
  have hid := hash_to_extension_id_eq (digestFn (generate_key_data 0)) (by omega) hbytes
  refine ⟨expandChars ((digestFn (generate_key_data 0)).take 16), hid, ?_, ?_, h00⟩
  all_goals
    have hw0 : (init_state 1).workers[0]? = some
        { counter := thread_start_counter 0, attempts := 0, finished := false,
          pending := none, tested := [] } := rfl
    have htry : try_generate_match_optimized digestFn [] (thread_start_counter 0) =
        some (some (expandChars ((digestFn (generate_key_data 0)).take 16),
          generate_key_data 0)) := by
      rw [h00]
      simp only [try_generate_match_optimized]
      rw [show hash_matches_prefix_optimized (digestFn (generate_key_data 0)) [] =
        some true from rfl]
      rw [hid]
      rfl
    have hA := worker_step_to_pending digestFn [] (init_state 1) 0 _ _
      hw0 rfl rfl rfl htry
    have hw1 : (worker_step digestFn [] (init_state 1) 0).workers[0]? = some
        { counter := thread_start_counter 0, attempts := 0, finished := false,
          pending := some (expandChars ((digestFn (generate_key_data 0)).take 16),
            generate_key_data 0),
          tested := [] ++ [thread_start_counter 0] } := by
      rw [hA]
      rfl
    have hB := worker_step_swap_win digestFn []
      (worker_step digestFn [] (init_state 1) 0) 0 _
      (expandChars ((digestFn (generate_key_data 0)).take 16)) (generate_key_data 0)
      hw1 rfl rfl (by rw [hA]; rfl)
    have hfixed : ∀ w ∈ (worker_step digestFn []
        (worker_step digestFn [] (init_state 1) 0) 0).workers, w.finished = true := by
      rw [hB, hA]
      intro w hw
      simp only [init_state, init_workers, show List.range 1 = [0] from rfl,
        List.map_cons, List.map_nil, List.set_cons_zero, List.mem_singleton] at hw
      subst hw
      rfl
    have hrun : run_vanity_id_generator digestFn [] 1 (0 :: 0 :: rest) =
        worker_step digestFn [] (worker_step digestFn [] (init_state 1) 0) 0 :=
      run_workers_fixed digestFn [] _ hfixed rest
  · rw [hrun, hB]
    norm_num
  · rw [hrun, hB, hA]
    simp only [init_state, init_workers, show List.range 1 = [0] from rfl,
      List.map_cons, List.map_nil, List.set_cons_zero, List.map_cons, List.map_nil]
    simp [h00]

/-- Witness for C8 with the test-double digest and the two-step schedule. -/
theorem C8_empty_prefix_first_candidate_witness :
    sha256_output_spec const_zero_digest ∧
    ∃ extId, hash_to_extension_id (const_zero_digest (generate_key_data 0)) = some extId ∧
      (run_vanity_id_generator const_zero_digest [] 1 (0 :: 0 :: [])).result =
        some (extId, generate_key_data 0, 1) ∧
      (run_vanity_id_generator const_zero_digest [] 1 (0 :: 0 :: [])).workers.map
        WorkerState.tested = [[0]] ∧
      thread_start_counter 0 = 0 :=
  ⟨const_zero_digest_spec,
   C8_empty_prefix_first_candidate const_zero_digest const_zero_digest_spec []⟩
